import Mathlib

/-!
Verification of the bibliographic-import core of `academic-admin`.

The Python sources `academic/import_bibtex.py` and `academic/cli.py` are
shallowly embedded below.  Strings are modelled as Lean `String`/`List Char`.
The regex classes `\d`, `[A-Z]`, `[a-z]` are the literal ASCII ranges they
denote; `str.isalnum`, `str.isupper` and `str.lower` are modelled exactly on
ASCII and additionally on the non-ASCII characters the slugify theorems
need — `İ` (U+0130, alphanumeric and uppercase, lowercasing to `i` plus the
combining dot above U+0307 per Unicode SpecialCasing), `ϒ` (U+03D2,
alphanumeric and uppercase, with no lowercase mapping) and U+0307 itself
(not alphanumeric).  Python's single-character `str.split(sep)` is modelled
by `splitChar`, exceptions by `Except`, and filesystem effects by an
explicit operation list.
-/

deriving instance DecidableEq for Except

namespace Academic

/-! ### Character classes (ASCII model of Python predicates) -/

/-- Regex `\d` / `str.isdigit` on ASCII: `'0'..'9'`. -/
def digitB (c : Char) : Bool := 48 ≤ c.toNat && c.toNat ≤ 57

/-- Regex `[A-Z]` (also the ASCII-cased part of `str.upper` classification). -/
def upperB (c : Char) : Bool := 65 ≤ c.toNat && c.toNat ≤ 90

/-- Regex `[a-z]`. -/
def lowB (c : Char) : Bool := 97 ≤ c.toNat && c.toNat ≤ 122

/-- ASCII letter. -/
def alphaB (c : Char) : Bool := upperB c || lowB c

/-- `str.isalnum` restricted to ASCII: letter or digit. -/
def alnumB (c : Char) : Bool := alphaB c || digitB c

/-- The whitespace characters removed by Python `str.strip()` (ASCII part). -/
def isPySpace (c : Char) : Bool :=
  c == ' ' || c == '\t' || c == '\n' || c == '\r' || c == '\x0b' || c == '\x0c'

/-- ASCII `str.lower` on one character. -/
def lowerChar (c : Char) : Char :=
  if upperB c then Char.ofNat (c.toNat + 32) else c

/-- ASCII `str.upper` on one character. -/
def upperChar (c : Char) : Char :=
  if lowB c then Char.ofNat (c.toNat - 32) else c

/-- Whether a character lies in the ASCII range, where the model above is
exact. -/
def asciiChar (c : Char) : Bool := decide (c.toNat < 128)

/-- `str.isalnum` beyond ASCII, modelled on the non-ASCII characters these
theorems need: `İ` (U+0130) and `ϒ` (U+03D2) are alphanumeric (Unicode
category Lu), while the combining dot above (U+0307, category Mn) is not. -/
def alnumX (c : Char) : Bool := alnumB c || c == 'İ' || c == 'ϒ'

/-- Per-character `str.isupper`, ASCII plus the modelled non-ASCII letters:
`İ` and `ϒ` are uppercase. -/
def upperPy (c : Char) : Bool := upperB c || c == 'İ' || c == 'ϒ'

/-- Per-character `str.lower`, which in Python can return several
characters: ASCII `A`–`Z` map down by 32, `İ` (U+0130) maps to `i` followed
by the combining dot above U+0307 (Unicode SpecialCasing), and `ϒ` (U+03D2)
has no lowercase mapping. -/
def lowerPy (c : Char) : List Char :=
  if upperB c then [Char.ofNat (c.toNat + 32)]
  else if c == 'İ' then ['i', '\u0307']
  else [c]

/-- `str.lower` on a whole string: concatenate the per-character images. -/
def lowerS : List Char → List Char
  | [] => []
  | c :: rest => lowerPy c ++ lowerS rest

/-! ### Generic string utilities shared by the embedded functions -/

/-- Python `str.split(sep)` for a single-character separator:
`"" → [""]`, separators at the ends produce empty pieces. -/
def splitChar (sep : Char) : List Char → List (List Char)
  | [] => [[]]
  | c :: rest =>
    match splitChar sep rest with
    | g :: gs => if c == sep then [] :: g :: gs else (c :: g) :: gs
    | [] => [[c]]

/-- Python `str.strip()` on a character list (ASCII whitespace model). -/
def stripL (l : List Char) : List Char :=
  ((l.dropWhile isPySpace).reverse.dropWhile isPySpace).reverse

/-- Python `str.strip()` on a `String`. -/
def pyStrip (s : String) : String := String.mk (stripL s.data)

/-- Python truthiness of a string: `bool(s)` is `True` iff `s` is non-empty. -/
def pyTruthy (s : String) : Bool := !(s.data.isEmpty)

/-! ### Slug Generator — `slugify` (`import_bibtex.py` 184–199, identical copy
in `cli.py` 276–291) -/

/-- Step 1 of `slugify`: replace each of `.`, `_`, `:` by the delimiter. -/
def replC (c : Char) : Char :=
  if c == '.' || c == '_' || c == ':' then '-' else c

/-- Step 1 on the whole string (`s.replace` for each bad symbol). -/
def replS (l : List Char) : List Char := l.map replC

/-- Step 2, `re.sub(r"(\D+)(\d+)", r"\1\-\2", s)`: the replacement template
`\-` is an unknown escape which Python leaves alone, so the characters
`\`, `-` are inserted between every non-digit immediately followed by
a digit. -/
def insND : List Char → List Char
  | a :: b :: rest =>
    if !digitB a && digitB b then a :: '\\' :: '-' :: insND (b :: rest)
    else a :: insND (b :: rest)
  | l => l

/-- Step 3, `re.sub(r"(\d+)(\D+)", r"\1\-\2", s)`: insert `\`, `-` between
every digit immediately followed by a non-digit. -/
def insDN : List Char → List Char
  | a :: b :: rest =>
    if digitB a && !digitB b then a :: '\\' :: '-' :: insDN (b :: rest)
    else a :: insDN (b :: rest)
  | l => l

/-- Whether the head of the remainder is an ASCII lowercase letter
(the lookahead `(?=[a-z])`). -/
def headLow : List Char → Bool
  | c :: _ => lowB c
  | [] => false

/-- Step 4 worker: `p` is the character preceding the current position.
`re.sub(r"((?<=[a-z])[A-Z]|(?<!\A)[A-Z](?=[a-z]))", r"\-\1", s)` inserts
`\`, `-` before each uppercase letter that is not at the start of the
string and is preceded by a lowercase letter or followed by one. -/
def camelAux (p : Char) : List Char → List Char
  | [] => []
  | c :: rest =>
    if upperB c && (lowB p || headLow rest) then
      '\\' :: '-' :: c :: camelAux c rest
    else c :: camelAux c rest

/-- Step 4 (camel-case splitting); the first character is never prefixed. -/
def camelS : List Char → List Char
  | [] => []
  | c :: rest => c :: camelAux c rest

/-- Step 5 keep-predicate: `c.isalnum() or c in ("-",)`. -/
def keepC (c : Char) : Bool := alnumX c || c == '-'

/-- Step 5: `"".join(c for c in s if c.isalnum() or c in good_symbols)`. -/
def filt (l : List Char) : List Char := l.filter keepC

/-- Step 6, `re.sub("-{2,}", "-", s)`: collapse every run of two or more
hyphens into a single hyphen, i.e. drop a hyphen whenever the next
character is also a hyphen. -/
def collapse : List Char → List Char
  | a :: b :: rest =>
    if a == '-' && b == '-' then collapse (b :: rest)
    else a :: collapse (b :: rest)
  | l => l

/-- The full `slugify` pipeline on a character list. -/
def slugL (lower : Bool) (l : List Char) : List Char :=
  let s := collapse (stripL (filt (camelS (insDN (insND (replS l))))))
  if lower then lowerS s else s

/-- `slugify(s, lower)` from `import_bibtex.py` 184–199. -/
def slugify (lower : Bool) (s : String) : String := String.mk (slugL lower s.data)

/-! ### Date Resolver — `month2number` (`import_bibtex.py` 222–233) and the
date block of `parse_bibtex_entry` (`import_bibtex.py` 91–107) -/

/-- Python `str.zfill(2)`: pad a shorter string with leading zeros to width 2,
keeping a sign prefix in front. -/
def zfill2 (s : String) : String :=
  match s.data with
  | [] => "00"
  | [c] => if c == '+' || c == '-' then String.mk [c, '0'] else String.mk ['0', c]
  | _ => s

/-- Python `str.title` worker (ASCII): a letter is uppercased when it follows
a non-letter and lowercased when it follows a letter. -/
def pyTitleAux (prevAlpha : Bool) : List Char → List Char
  | [] => []
  | c :: rest =>
    if alphaB c then
      (if prevAlpha then lowerChar c else upperChar c) :: pyTitleAux true rest
    else c :: pyTitleAux false rest

/-- Python `str.title` (ASCII model). -/
def pyTitle (s : String) : String := String.mk (pyTitleAux false s.data)

/-- `list(calendar.month_abbr)` in the default C locale: an empty placeholder
followed by the twelve abbreviated month names. -/
def monthAbbrs : List String :=
  ["", "Jan", "Feb", "Mar", "Apr", "May", "Jun", "Jul", "Aug", "Sep", "Oct", "Nov", "Dec"]

/-- Python `list.index`: index of the first occurrence, `ValueError` if absent. -/
def idxOfAux (x : String) : List String → Nat → Option Nat
  | [], _ => none
  | y :: ys, i => if y == x then some i else idxOfAux x ys (i + 1)

/-- `month2number(month)` from `import_bibtex.py` 222–233: a 1–2 character
month is zero-filled; otherwise the first three characters of the stripped
month are title-cased and looked up in `calendar.month_abbr`; a missing
abbreviation raises (`Except.error`). -/
def month2number (month : String) : Except Unit String :=
  if month.data.length ≤ 2 then Except.ok (zfill2 month)
  else
    match idxOfAux (pyTitle (String.mk ((stripL month.data).take 3))) monthAbbrs 0 with
    | some i => Except.ok (zfill2 (toString i))
    | none => Except.error ()

/-- The `entry["date"].split("-")` branch of `parse_bibtex_entry`
(`import_bibtex.py` 92–99), starting from the defaults `("", "01", "01")`. -/
def splitDate (ds : String) : String × String × String :=
  match (splitChar '-' ds.data).map String.mk with
  | [a, b, c] => (a, b, c)
  | [a, b] => (a, b, "01")
  | [a] => (a, "01", "01")
  | _ => ("", "01", "01")

/-- The full date-resolution block of `parse_bibtex_entry`
(`import_bibtex.py` 91–103): the `date` field is split first; the `month`
field is consulted only while the month is still `"01"`; the `year` field
is consulted only while the year is still empty. -/
def resolveDate (dateF monthF yearF : Option String) :
    Except Unit (String × String × String) :=
  let ymd : String × String × String :=
    match dateF with
    | some ds => splitDate ds
    | none => ("", "01", "01")
  let m2 : Except Unit String :=
    match monthF with
    | some ms => if ymd.2.1 == "01" then month2number ms else Except.ok ymd.2.1
    | none => Except.ok ymd.2.1
  match m2 with
  | Except.error e => Except.error e
  | Except.ok m =>
    let y : String :=
      match yearF with
      | some ys => if ymd.1 == "" then ys else ymd.1
      | none => ymd.1
    Except.ok (y, m, ymd.2.2)

/-! ### Batch processing — `import_bibtex` (`import_bibtex.py` 20–45) -/

/-- The fields of one parsed citation record used by the date pipeline. -/
structure BibEntry where
  id : String
  entrytype : String
  date : Option String
  month : Option String
  year : Option String
deriving DecidableEq

/-- `"-".join([year, month, day])` (`import_bibtex.py` 107). -/
def joinDate : String × String × String → String
  | (y, m, d) => y ++ "-" ++ m ++ "-" ++ d

/-- The fragment of `parse_bibtex_entry` that can raise for one entry:
resolving the entry's date (an unrecognized textual month propagates). -/
def processEntry (e : BibEntry) : Except Unit String :=
  (resolveDate e.date e.month e.year).map joinDate

/-- The entry loop of `import_bibtex` (`import_bibtex.py` 36–45): entries are
processed strictly in order with no per-entry exception handler, so the
first raising entry aborts the remainder of the batch. -/
def importBatch : List BibEntry → Except Unit (List String)
  | [] => Except.ok []
  | e :: rest =>
    match processEntry e with
    | Except.error u => Except.error u
    | Except.ok r =>
      match importBatch rest with
      | Except.error u => Except.error u
      | Except.ok rs => Except.ok (r :: rs)

/-! ### Option Flag Parser — the `options` block of `parse_bibtex_entry`
(`import_bibtex.py` 133–150, identical logic in `cli.py` 220–237) -/

/-- One iteration of the `for option in options` loop.
`Except.error ()` models the `ValueError` raised by `k, v = option.split("=")`
when the option contains two or more `=`; `some b` models an assignment
followed by `break`; `none` models falling through to the next option.
`bool(v.strip())` is string truthiness: any non-empty trimmed value is true. -/
def parseOptionStep (opt : String) : Except Unit (Option Bool) :=
  match (splitChar '=' opt.data).map String.mk with
  | [_] =>
    if pyStrip opt == "featured" then Except.ok (some true) else Except.ok none
  | [k, v] =>
    if pyStrip k == "featured" then Except.ok (some (pyTruthy (pyStrip v)))
    else Except.ok none
  | _ => Except.error ()

/-- The `for` loop over the split options, with the surrounding
`try/except`: an exception leaves `featured_from_bibtex` at the caller
default (no assignment can precede it, since every assignment breaks). -/
def scanOptions (d : Bool) : List String → Bool
  | [] => d
  | o :: rest =>
    match parseOptionStep o with
    | Except.error _ => d
    | Except.ok (some b) => b
    | Except.ok none => scanOptions d rest

/-- The featured flag resolved from an optional `options` field and the
caller-supplied default (`import_bibtex.py` 134–150). -/
def featuredFromEntry (d : Bool) (options : Option String) : Bool :=
  match options with
  | none => d
  | some s => scanOptions d ((splitChar ',' s.data).map String.mk)

/-- Modelled from the spec for comparison in claim C5: an option containing
`=` is split once on the FIRST `=` into a key and a value (the value keeps
any further `=`), with the same trimmed-key test and value truthiness. -/
def parseOptionSpecOnce (opt : String) : Option Bool :=
  match splitChar '=' opt.data with
  | [_] => if pyStrip opt == "featured" then some true else none
  | k :: vparts =>
    if pyStrip (String.mk k) == "featured"
    then some (pyTruthy (pyStrip (String.mk (List.intercalate ['='] vparts))))
    else none
  | [] => none

/-- Modelled from the spec for comparison in claim C5: the scan over options
under the split-once reading (no option is malformed). -/
def scanOptionsSpecOnce (d : Bool) : List String → Bool
  | [] => d
  | o :: rest =>
    match parseOptionSpecOnce o with
    | some b => b
    | none => scanOptionsSpecOnce d rest

/-- Modelled from the spec for comparison in claim C5. -/
def featuredFromEntrySpecOnce (d : Bool) (options : Option String) : Bool :=
  match options with
  | none => d
  | some s => scanOptionsSpecOnce d ((splitChar ',' s.data).map String.mk)

/-! ### Publication Type mapping (`cli.py` 28–56 and 212–213) -/

/-- The members of the `PublicationType` Python enum. -/
inductive PublicationType
  | Uncategorized
  | ConferencePaper
  | JournalArticle
  | Preprint
  | Report
  | Book
  | BookSection
  | Thesis
  | Patent
deriving DecidableEq

/-- A Python enum member value: a plain `int`, or a one-element tuple when
the member was declared with a trailing comma. -/
inductive PyEnumVal
  | int (n : Int)
  | tuple1 (n : Int)
deriving DecidableEq

/-- The declared values of `class PublicationType(Enum)` (`cli.py` 28–37).
`Uncategorized = 0,` carries a trailing comma, so its Python value is the
tuple `(0,)`, not the integer `0`. -/
def PublicationType.value : PublicationType → PyEnumVal
  | .Uncategorized => .tuple1 0
  | .ConferencePaper => .int 1
  | .JournalArticle => .int 2
  | .Preprint => .int 3
  | .Report => .int 4
  | .Book => .int 5
  | .BookSection => .int 6
  | .Thesis => .int 7
  | .Patent => .int 8

/-- Python `str()` of an enum member value: decimal form for an `int`,
`"(n,)"` for a one-element tuple. -/
def pyStrVal : PyEnumVal → String
  | .int n => toString n
  | .tuple1 n => "(" ++ toString n ++ ",)"

/-- The `PUB_TYPES` lookup table (`cli.py` 39–56). -/
def PUB_TYPES : List (String × PublicationType) :=
  [("article", .JournalArticle),
   ("book", .Book),
   ("conference", .ConferencePaper),
   ("inbook", .BookSection),
   ("incollection", .BookSection),
   ("inproceedings", .ConferencePaper),
   ("manual", .Report),
   ("mastersthesis", .Thesis),
   ("misc", .Uncategorized),
   ("patent", .Patent),
   ("phdthesis", .Thesis),
   ("proceedings", .Uncategorized),
   ("report", .Report),
   ("thesis", .Thesis),
   ("techreport", .Report),
   ("unpublished", .Preprint)]

/-- `PUB_TYPES.get(entry["ENTRYTYPE"], PublicationType.Uncategorized)`
(`cli.py` 212). -/
def lookupPubType (entrytype : String) : PublicationType :=
  match PUB_TYPES.lookup entrytype with
  | some t => t
  | none => PublicationType.Uncategorized

/-- `[str(pubtype.value)]` (`cli.py` 213): the emitted `publication_types`. -/
def publicationTypes (entrytype : String) : List String :=
  [pyStrVal (lookupPubType entrytype).value]

/-! ### publishDate resolution (`import_bibtex.py` 107–113 versus
`cli.py` 198–202) -/

/-- The `publishDate` branch of the `EditableFM`-based importer
(`import_bibtex.py` 108–113): an existing front-matter value is kept;
otherwise the resolved date (when `publish_date_from_bibtex` is set) or the
fresh timestamp is used. -/
def resolvePublishDate (existing : Option String) (publishDateFromBibtex : Bool)
    (resolvedDate timestamp : String) : String :=
  match existing with
  | some v => v
  | none => if publishDateFromBibtex then resolvedDate else timestamp

/-- `timestamp = date.isoformat("T") + "Z"` (`import_bibtex.py` 58):
the fresh timestamp always carries a literal `Z` suffix. -/
def mkTimestamp (isoNow : String) : String := isoNow ++ "Z"

/-- The head of the fresh `metadata` dictionary built by the duplicate
entry parser in `cli.py` 198–202: `publishDate` is always the fresh
timestamp, with no reference to any existing on-disk document. -/
def cliMetadataCore (title resolvedDate timestamp : String) : List (String × String) :=
  [("title", title), ("date", resolvedDate), ("publishDate", timestamp)]

/-! ### Bundle Writer effect order (`import_bibtex.py` 60–82 and 174–181,
identical checks in `cli.py` 160–177 and 264–271) -/

/-- One filesystem mutation performed by `parse_bibtex_entry`. -/
inductive FsOp
  | mkdir (path : String)
  | writeFile (path : String)
  | runHugoNew (path : String)
deriving DecidableEq

/-- The ordered filesystem mutations of `parse_bibtex_entry`: the
skip-if-exists check (`import_bibtex.py` 61–63) runs before any mutation,
and every mutation is guarded by `dry_run`. -/
def bundleEffects (overwrite dirExists dryRun : Bool)
    (bundlePath markdownPath citePath : String) : List FsOp :=
  if !overwrite && dirExists then []
  else
    (if dryRun then [] else [FsOp.mkdir bundlePath])
      ++ (if dryRun then [] else [FsOp.writeFile citePath])
      ++ (if dryRun then [] else [FsOp.runHugoNew markdownPath])
      ++ (if dryRun then [] else [FsOp.writeFile markdownPath])

/-! ### Tag Normalizer — `clean_bibtex_tags` (`import_bibtex.py` 214–219) -/

/-- Python `str.capitalize` (ASCII): first character uppercased, the rest
lowercased. -/
def pyCapitalize (s : String) : String :=
  match s.data with
  | [] => ""
  | c :: rest => String.mk (upperChar c :: rest.map lowerChar)

/-- Python `str.lower` (ASCII). -/
def pyLower (s : String) : String := String.mk (s.data.map lowerChar)

/-- `clean_bibtex_tags(s, normalize)`: split on commas, strip each tag, and
optionally normalize each tag with `tag.lower().capitalize()`. -/
def cleanBibtexTags (s : String) (normalize : Bool) : List String :=
  let tags := ((splitChar ',' s.data).map String.mk).map pyStrip
  if normalize then tags.map (fun t => pyCapitalize (pyLower t)) else tags

/-! ### Invariants and auxiliary forms used by the slugify proofs -/

/-- Every adjacent pair of the list satisfies `P`. -/
def pairOK (P : Char → Char → Prop) : List Char → Prop
  | a :: b :: rest => P a b ∧ pairOK P (b :: rest)
  | _ => True

/-- In the strings produced by step 3 of the pipeline: every digit is
followed by a digit, or by the inserted pair `\`, `-`, or ends the string. -/
def digitSucc : List Char → Prop
  | a :: b :: rest =>
      (digitB a = true → (digitB b = true ∨ (b = '\\' ∧ rest.head? = some '-')))
      ∧ digitSucc (b :: rest)
  | _ => True

/-- Predecessor discipline after step 2: a digit is preceded only by a digit
or a hyphen. -/
def predOK (a b : Char) : Prop := digitB b = true → (digitB a = true ∨ a = '-')

/-- No two adjacent hyphens. -/
def noDD (a b : Char) : Prop := ¬(a = '-' ∧ b = '-')

/-- No letter directly adjacent to a digit. -/
def noAD (a b : Char) : Prop :=
  ¬(alphaB a = true ∧ digitB b = true) ∧ ¬(digitB a = true ∧ alphaB b = true)

/-- A digit is never preceded by a letter under `keepC` characters. -/
def dashBeforeDigit (a b : Char) : Prop :=
  digitB b = true → digitB a = false → a = '-'

/-- A digit is never followed by a letter under `keepC` characters. -/
def dashAfterDigit (a b : Char) : Prop :=
  digitB a = true → digitB b = false → b = '-'

/-- A character of a finished ASCII slug: kept by the filter, not an ASCII
uppercase letter, and inside the ASCII range (where the case model is
one-to-one). -/
def goodEl (c : Char) : Prop :=
  keepC c = true ∧ upperB c = false ∧ c.toNat < 128

/-- Both adjacency disciplines of a finished slug. -/
def goodPair (a b : Char) : Prop := noDD a b ∧ noAD a b

/-- The output invariant of `slugL true`. -/
def Good (l : List Char) : Prop := (∀ c ∈ l, goodEl c) ∧ pairOK goodPair l

/-- What step 2 does to a finished slug: `\`, `-` inserted between each
hyphen–digit pair. -/
def insA : List Char → List Char
  | a :: b :: rest =>
    if a == '-' && digitB b then a :: '\\' :: '-' :: insA (b :: rest)
    else a :: insA (b :: rest)
  | l => l

/-- What steps 2 and 3 together do to a finished slug. -/
def insB : List Char → List Char
  | a :: b :: rest =>
    if a == '-' && digitB b || digitB a && b == '-' then
      a :: '\\' :: '-' :: insB (b :: rest)
    else a :: insB (b :: rest)
  | l => l

/-- What steps 2–5 together do to a finished slug: the hyphen is doubled at
each hyphen–digit and digit–hyphen boundary. -/
def dupD : List Char → List Char
  | a :: b :: rest =>
    if a == '-' && digitB b || digitB a && b == '-' then
      a :: '-' :: dupD (b :: rest)
    else a :: dupD (b :: rest)
  | l => l

/-! ## Supporting lemmas -/

theorem toNat_ofNat_lower (n : Nat) (h1 : 65 ≤ n) (h2 : n ≤ 90) :
    (Char.ofNat (n + 32)).toNat = n + 32 := by
  interval_cases n <;> decide

theorem toNat_ofNat_upper (n : Nat) (h1 : 97 ≤ n) (h2 : n ≤ 122) :
    (Char.ofNat (n - 32)).toNat = n - 32 := by
  interval_cases n <;> decide

theorem toNat_eq_of_eq {c d : Char} (h : c = d) : c.toNat = d.toNat :=
  congrArg Char.toNat h

theorem lowerChar_toNat_of_upper {c : Char} (h : upperB c = true) :
    (lowerChar c).toNat = c.toNat + 32 := by
  have h1 : 65 ≤ c.toNat ∧ c.toNat ≤ 90 := by
    simpa [upperB, Bool.and_eq_true, decide_eq_true_eq] using h
  simp only [lowerChar, h, if_true]
  exact toNat_ofNat_lower c.toNat h1.1 h1.2

theorem lowerChar_of_not_upper {c : Char} (h : upperB c = false) :
    lowerChar c = c := by
  simp [lowerChar, h]

theorem upperB_bounds {c : Char} (h : upperB c = true) :
    65 ≤ c.toNat ∧ c.toNat ≤ 90 := by
  simpa [upperB, Bool.and_eq_true, decide_eq_true_eq] using h

theorem lowB_bounds {c : Char} (h : lowB c = true) :
    97 ≤ c.toNat ∧ c.toNat ≤ 122 := by
  simpa [lowB, Bool.and_eq_true, decide_eq_true_eq] using h

theorem digitB_bounds {c : Char} (h : digitB c = true) :
    48 ≤ c.toNat ∧ c.toNat ≤ 57 := by
  simpa [digitB, Bool.and_eq_true, decide_eq_true_eq] using h

/-- After ASCII lowering, no character is an ASCII uppercase letter. -/
theorem upperB_lowerChar (c : Char) : upperB (lowerChar c) = false := by
  by_cases h : upperB c = true
  · have ht := lowerChar_toNat_of_upper h
    have hb := upperB_bounds h
    cases hd : upperB (lowerChar c)
    · rfl
    · exfalso
      have := upperB_bounds hd
      rw [ht] at this
      omega
  · simp only [Bool.not_eq_true] at h
    rw [lowerChar_of_not_upper h]; exact h

/-- Lowering preserves the digit class. -/
theorem digitB_lowerChar (c : Char) : digitB (lowerChar c) = digitB c := by
  by_cases h : upperB c = true
  · have ht := lowerChar_toNat_of_upper h
    have hb := upperB_bounds h
    have h1 : digitB (lowerChar c) = false := by
      cases hd : digitB (lowerChar c)
      · rfl
      · exfalso
        have := digitB_bounds hd
        rw [ht] at this
        omega
    have h2 : digitB c = false := by
      cases hd : digitB c
      · rfl
      · exfalso
        have := digitB_bounds hd
        omega
    rw [h1, h2]
  · simp only [Bool.not_eq_true] at h
    rw [lowerChar_of_not_upper h]

/-- Lowering preserves the letter class. -/
theorem alphaB_lowerChar (c : Char) : alphaB (lowerChar c) = alphaB c := by
  by_cases h : upperB c = true
  · have ht := lowerChar_toNat_of_upper h
    have hb := upperB_bounds h
    have hres : lowB (lowerChar c) = true := by
      simp only [lowB, ht, Bool.and_eq_true, decide_eq_true_eq]
      omega
    simp [alphaB, hres, h]
  · simp only [Bool.not_eq_true] at h
    rw [lowerChar_of_not_upper h]

/-- Lowering preserves the alphanumeric class. -/
theorem alnumB_lowerChar (c : Char) : alnumB (lowerChar c) = alnumB c := by
  simp [alnumB, alphaB_lowerChar, digitB_lowerChar]

/-- Lowering maps the hyphen to itself and nothing new to the hyphen. -/
theorem lowerChar_eq_dash_iff (c : Char) : lowerChar c = '-' ↔ c = '-' := by
  constructor
  · intro h
    by_cases hu : upperB c = true
    · have ht := lowerChar_toNat_of_upper hu
      have hb := upperB_bounds hu
      have := toNat_eq_of_eq h
      rw [ht] at this
      simp only [show ('-').toNat = 45 from rfl] at this
      omega
    · simp only [Bool.not_eq_true] at hu
      rwa [lowerChar_of_not_upper hu] at h
  · intro h; subst h; decide

/-- `splitChar` never returns the empty list (Python `split` always yields
at least one piece). -/
theorem splitChar_ne_nil (sep : Char) (l : List Char) : splitChar sep l ≠ [] := by
  cases l with
  | nil => simp [splitChar]
  | cons c rest =>
    simp only [splitChar]
    cases h : splitChar sep rest with
    | nil => simp
    | cons g gs =>
      by_cases hc : c == sep
      · simp [hc]
      · simp [hc]

/-! ### pairOK utilities -/

theorem pairOK_tail {P : Char → Char → Prop} {a : Char} {l : List Char}
    (h : pairOK P (a :: l)) : pairOK P l := by
  cases l with
  | nil => trivial
  | cons b r => exact h.2

theorem pairOK_and {P Q : Char → Char → Prop} : ∀ {l : List Char},
    pairOK P l → pairOK Q l → pairOK (fun a b => P a b ∧ Q a b) l := by
  intro l
  induction l with
  | nil => intro _ _; trivial
  | cons a r ih =>
    intro hp hq
    cases r with
    | nil => trivial
    | cons b t => exact ⟨⟨hp.1, hq.1⟩, ih hp.2 hq.2⟩

theorem pairOK_transfer {P Q : Char → Char → Prop} {E : Char → Prop}
    (h : ∀ a b, E a → E b → P a b → Q a b) : ∀ {l : List Char},
    (∀ c ∈ l, E c) → pairOK P l → pairOK Q l := by
  intro l
  induction l with
  | nil => intro _ _; trivial
  | cons a r ih =>
    intro he hp
    cases r with
    | nil => trivial
    | cons b t =>
      exact ⟨h a b (he a (by simp)) (he b (by simp)) hp.1,
        ih (fun c hc => he c (by simp [hc])) hp.2⟩

/-! ### Head shapes of the pipeline stages (insertions happen behind the
first character, so the head is preserved) -/

theorem insND_cons (b : Char) (rest : List Char) : ∃ t, insND (b :: rest) = b :: t := by
  cases rest with
  | nil => exact ⟨[], rfl⟩
  | cons c r =>
    by_cases h : (!digitB b && digitB c) = true
    · exact ⟨'\\' :: '-' :: insND (c :: r), by simp [insND, h]⟩
    · exact ⟨insND (c :: r), by simp [insND, h]⟩

theorem insDN_cons (b : Char) (rest : List Char) : ∃ t, insDN (b :: rest) = b :: t := by
  cases rest with
  | nil => exact ⟨[], rfl⟩
  | cons c r =>
    by_cases h : (digitB b && !digitB c) = true
    · exact ⟨'\\' :: '-' :: insDN (c :: r), by simp [insDN, h]⟩
    · exact ⟨insDN (c :: r), by simp [insDN, h]⟩

theorem insA_cons (b : Char) (rest : List Char) : ∃ t, insA (b :: rest) = b :: t := by
  cases rest with
  | nil => exact ⟨[], rfl⟩
  | cons c r =>
    by_cases h : (b == '-' && digitB c) = true
    · exact ⟨'\\' :: '-' :: insA (c :: r), by simp [insA, h]⟩
    · exact ⟨insA (c :: r), by simp [insA, h]⟩

theorem insB_cons (b : Char) (rest : List Char) : ∃ t, insB (b :: rest) = b :: t := by
  cases rest with
  | nil => exact ⟨[], rfl⟩
  | cons c r =>
    by_cases h : (b == '-' && digitB c || digitB b && c == '-') = true
    · exact ⟨'\\' :: '-' :: insB (c :: r), by simp [insB, h]⟩
    · exact ⟨insB (c :: r), by simp [insB, h]⟩

theorem dupD_cons (b : Char) (rest : List Char) : ∃ t, dupD (b :: rest) = b :: t := by
  cases rest with
  | nil => exact ⟨[], rfl⟩
  | cons c r =>
    by_cases h : (b == '-' && digitB c || digitB b && c == '-') = true
    · exact ⟨'-' :: dupD (c :: r), by simp [dupD, h]⟩
    · exact ⟨dupD (c :: r), by simp [dupD, h]⟩

theorem collapse_cons : ∀ (rest : List Char) (b : Char),
    ∃ t, collapse (b :: rest) = b :: t := by
  intro rest
  induction rest with
  | nil => exact fun b => ⟨[], rfl⟩
  | cons c r ih =>
    intro b
    by_cases h : (b == '-' && c == '-') = true
    · obtain ⟨t, ht⟩ := ih c
      have hb : b = c := by
        simp only [Bool.and_eq_true, beq_iff_eq] at h
        rw [h.1, h.2]
      refine ⟨t, ?_⟩
      rw [show collapse (b :: c :: r) = collapse (c :: r) by simp [collapse, h], ht, hb]
    · exact ⟨collapse (c :: r), by simp [collapse, h]⟩

/-! ### Membership in the pipeline stages -/

theorem mem_insB : ∀ {l : List Char} {c : Char},
    c ∈ insB l → c ∈ l ∨ c = '\\' ∨ c = '-' := by
  intro l
  induction l with
  | nil => intro c h; exact Or.inl h
  | cons a r ih =>
    cases r with
    | nil => intro c h; exact Or.inl h
    | cons b t =>
      intro c h
      by_cases hc : (a == '-' && digitB b || digitB a && b == '-') = true
      · simp only [insB, hc, if_true, List.mem_cons] at h
        rcases h with rfl | rfl | rfl | h
        · exact Or.inl (by simp)
        · exact Or.inr (Or.inl rfl)
        · exact Or.inr (Or.inr rfl)
        · rcases ih h with h' | h' | h'
          · exact Or.inl (by simp [h'])
          · exact Or.inr (Or.inl h')
          · exact Or.inr (Or.inr h')
      · rw [show insB (a :: b :: t) = a :: insB (b :: t) by simp [insB, hc]] at h
        rcases List.mem_cons.mp h with rfl | h
        · exact Or.inl (by simp)
        · rcases ih h with h' | h' | h'
          · exact Or.inl (by simp [h'])
          · exact Or.inr (Or.inl h')
          · exact Or.inr (Or.inr h')

theorem mem_dupD : ∀ {l : List Char} {c : Char},
    c ∈ dupD l → c ∈ l ∨ c = '-' := by
  intro l
  induction l with
  | nil => intro c h; exact Or.inl h
  | cons a r ih =>
    cases r with
    | nil => intro c h; exact Or.inl h
    | cons b t =>
      intro c h
      by_cases hc : (a == '-' && digitB b || digitB a && b == '-') = true
      · simp only [dupD, hc, if_true, List.mem_cons] at h
        rcases h with rfl | rfl | h
        · exact Or.inl (by simp)
        · exact Or.inr rfl
        · rcases ih h with h' | h'
          · exact Or.inl (by simp [h'])
          · exact Or.inr h'
      · rw [show dupD (a :: b :: t) = a :: dupD (b :: t) by simp [dupD, hc]] at h
        rcases List.mem_cons.mp h with rfl | h
        · exact Or.inl (by simp)
        · rcases ih h with h' | h'
          · exact Or.inl (by simp [h'])
          · exact Or.inr h'

theorem mem_collapse : ∀ {l : List Char} {c : Char}, c ∈ collapse l → c ∈ l := by
  intro l
  induction l with
  | nil => intro c h; exact h
  | cons a r ih =>
    cases r with
    | nil => intro c h; exact h
    | cons b t =>
      intro c h
      by_cases hc : (a == '-' && b == '-') = true
      · rw [show collapse (a :: b :: t) = collapse (b :: t) by simp [collapse, hc]] at h
        exact List.mem_cons_of_mem a (ih h)
      · rw [show collapse (a :: b :: t) = a :: collapse (b :: t) by simp [collapse, hc]] at h
        rcases List.mem_cons.mp h with rfl | h
        · exact List.mem_cons_self c (b :: t)
        · exact List.mem_cons_of_mem a (ih h)

theorem mem_filt {l : List Char} {c : Char} (h : c ∈ filt l) : keepC c = true :=
  (List.mem_filter.mp h).2

theorem mem_filt_sub {l : List Char} {c : Char} (h : c ∈ filt l) : c ∈ l :=
  (List.mem_filter.mp h).1

/-! ### Character micro-facts -/

theorem digitB_dash : digitB '-' = false := by decide

theorem digitB_backslash : digitB '\\' = false := by decide

theorem beq_dash_false_of_digit {a : Char} (h : digitB a = true) : (a == '-') = false := by
  cases hae : a == '-'
  · rfl
  · exfalso
    rw [show a = '-' from eq_of_beq hae] at h
    exact absurd h (by decide)

theorem ne_dash_of_digit {b : Char} (h : digitB b = true) : b ≠ '-' := by
  intro he
  rw [he] at h
  exact absurd h (by decide)

theorem beq_both_dash_false {a b : Char} (h : noDD a b) : (a == '-' && b == '-') = false := by
  cases h1 : a == '-'
  · rfl
  · cases h2 : b == '-'
    · rfl
    · exact absurd ⟨eq_of_beq h1, eq_of_beq h2⟩ h

theorem keep_not_space {c : Char} (h : keepC c = true) : isPySpace c = false := by
  cases hs : isPySpace c
  · rfl
  · exfalso
    simp only [isPySpace, Bool.or_eq_true, beq_iff_eq] at hs
    rcases hs with ((((h1 | h1) | h1) | h1) | h1) | h1 <;>
      rw [h1] at h <;> exact absurd h (by decide)

theorem replC_id {c : Char} (h : keepC c = true) : replC c = c := by
  by_cases hc : (c == '.' || c == '_' || c == ':') = true
  · exfalso
    simp only [Bool.or_eq_true, beq_iff_eq] at hc
    rcases hc with (h1 | h1) | h1 <;> rw [h1] at h <;> exact absurd h (by decide)
  · simp [replC, hc]

/-! ### The pipeline is the identity on finished slugs (stage by stage) -/

theorem replS_id : ∀ {l : List Char}, (∀ c ∈ l, keepC c = true) → replS l = l := by
  intro l
  induction l with
  | nil => intro _; rfl
  | cons a r ih =>
    intro h
    show replC a :: replS r = a :: r
    rw [replC_id (h a (by simp)), ih (fun c hc => h c (by simp [hc]))]

theorem insND_eq_insA : ∀ {l : List Char},
    pairOK dashBeforeDigit l → insND l = insA l := by
  intro l
  induction l with
  | nil => intro _; rfl
  | cons a r ih =>
    cases r with
    | nil => intro _; rfl
    | cons b t =>
      intro h
      have hrec := ih (pairOK_tail h)
      cases hB : digitB b
      · rw [show insND (a :: b :: t) = a :: insND (b :: t) by simp [insND, hB],
            show insA (a :: b :: t) = a :: insA (b :: t) by simp [insA, hB], hrec]
      · cases hA : digitB a
        · have ha : a = '-' := h.1 hB hA
          subst ha
          rw [show insND ('-' :: b :: t) = '-' :: '\\' :: '-' :: insND (b :: t) by
                simp [insND, hB, digitB_dash],
              show insA ('-' :: b :: t) = '-' :: '\\' :: '-' :: insA (b :: t) by
                simp [insA, hB], hrec]
        · rw [show insND (a :: b :: t) = a :: insND (b :: t) by simp [insND, hA],
              show insA (a :: b :: t) = a :: insA (b :: t) by
                simp [insA, hB, beq_dash_false_of_digit hA], hrec]

theorem insDN_insA_eq_insB : ∀ {l : List Char},
    pairOK dashAfterDigit l → insDN (insA l) = insB l := by
  intro l
  induction l with
  | nil => intro _; rfl
  | cons a r ih =>
    cases r with
    | nil => intro _; rfl
    | cons b t =>
      intro h
      have hrec := ih (pairOK_tail h)
      cases hA : digitB a
      · cases hd : a == '-'
        · -- a is neither a digit nor the dash: no insertion at this pair
          obtain ⟨u, hu⟩ := insA_cons b t
          rw [show insA (a :: b :: t) = a :: insA (b :: t) by simp [insA, hd], hu,
              show insDN (a :: b :: u) = a :: insDN (b :: u) by simp [insDN, hA],
              ← hu, hrec,
              show insB (a :: b :: t) = a :: insB (b :: t) by simp [insB, hd, hA]]
        · -- a = '-'
          have ha : a = '-' := eq_of_beq hd
          subst ha
          cases hB : digitB b
          · obtain ⟨u, hu⟩ := insA_cons b t
            rw [show insA ('-' :: b :: t) = '-' :: insA (b :: t) by simp [insA, hB], hu,
                show insDN ('-' :: b :: u) = '-' :: insDN (b :: u) from rfl,
                ← hu, hrec,
                show insB ('-' :: b :: t) = '-' :: insB (b :: t) by
                  simp [insB, hB, digitB_dash]]
          · obtain ⟨u, hu⟩ := insA_cons b t
            rw [show insA ('-' :: b :: t) = '-' :: '\\' :: '-' :: insA (b :: t) by
                  simp [insA, hB], hu,
                show insDN ('-' :: '\\' :: '-' :: b :: u)
                    = '-' :: '\\' :: '-' :: insDN (b :: u) from rfl,
                ← hu, hrec,
                show insB ('-' :: b :: t) = '-' :: '\\' :: '-' :: insB (b :: t) by
                  simp [insB, hB]]
      · -- a is a digit
        cases hB : digitB b
        · -- digit followed by a non-digit: on a finished slug that is the dash
          have hb : b = '-' := h.1 hA hB
          subst hb
          obtain ⟨u, hu⟩ := insA_cons '-' t
          rw [show insA (a :: '-' :: t) = a :: insA ('-' :: t) by
                simp [insA, digitB_dash], hu,
              show insDN (a :: '-' :: u) = a :: '\\' :: '-' :: insDN ('-' :: u) by
                simp [insDN, hA, digitB_dash],
              ← hu, hrec,
              show insB (a :: '-' :: t) = a :: '\\' :: '-' :: insB ('-' :: t) by
                simp [insB, hA, beq_dash_false_of_digit hA]]
        · obtain ⟨u, hu⟩ := insA_cons b t
          rw [show insA (a :: b :: t) = a :: insA (b :: t) by
                simp [insA, beq_dash_false_of_digit hA], hu,
              show insDN (a :: b :: u) = a :: insDN (b :: u) by simp [insDN, hB],
              ← hu, hrec,
              show insB (a :: b :: t) = a :: insB (b :: t) by
                simp [insB, beq_dash_false_of_digit hA, beq_dash_false_of_digit hB]]

theorem camelAux_id : ∀ {l : List Char} (p : Char),
    (∀ c ∈ l, upperB c = false) → camelAux p l = l := by
  intro l
  induction l with
  | nil => intro p _; rfl
  | cons c r ih =>
    intro p h
    have hc : upperB c = false := h c (by simp)
    rw [show camelAux p (c :: r) = c :: camelAux c r by simp [camelAux, hc],
        ih c (fun d hd => h d (by simp [hd]))]

theorem camelS_id {l : List Char} (h : ∀ c ∈ l, upperB c = false) : camelS l = l := by
  cases l with
  | nil => rfl
  | cons c r =>
    show c :: camelAux c r = c :: r
    rw [camelAux_id c (fun d hd => h d (by simp [hd]))]

theorem filt_cons_keep {a : Char} {l : List Char} (h : keepC a = true) :
    filt (a :: l) = a :: filt l := by
  simp [filt, List.filter_cons, h]

theorem filt_insB_eq_dupD : ∀ {l : List Char},
    (∀ c ∈ l, keepC c = true) → filt (insB l) = dupD l := by
  intro l
  induction l with
  | nil => intro _; rfl
  | cons a r ih =>
    cases r with
    | nil =>
      intro h
      show filt [a] = [a]
      rw [filt_cons_keep (h a (by simp))]; rfl
    | cons b t =>
      intro h
      have hrec := ih (fun c hc => h c (by simp [hc]))
      have ha : keepC a = true := h a (by simp)
      cases hc : (a == '-' && digitB b || digitB a && b == '-')
      · rw [show insB (a :: b :: t) = a :: insB (b :: t) by simp [insB, hc],
            filt_cons_keep ha, hrec,
            show dupD (a :: b :: t) = a :: dupD (b :: t) by simp [dupD, hc]]
      · rw [show insB (a :: b :: t) = a :: '\\' :: '-' :: insB (b :: t) by simp [insB, hc],
            filt_cons_keep ha,
            show filt ('\\' :: '-' :: insB (b :: t)) = '-' :: filt (insB (b :: t)) from rfl,
            hrec,
            show dupD (a :: b :: t) = a :: '-' :: dupD (b :: t) by simp [dupD, hc]]

theorem dropWhile_id {p : Char → Bool} {l : List Char}
    (h : ∀ c ∈ l, p c = false) : l.dropWhile p = l := by
  cases l with
  | nil => rfl
  | cons a r => simp [List.dropWhile_cons, h a (by simp)]

theorem stripL_id {l : List Char} (h : ∀ c ∈ l, isPySpace c = false) : stripL l = l := by
  unfold stripL
  rw [dropWhile_id h,
      dropWhile_id (fun c hc => h c (List.mem_reverse.mp hc)),
      List.reverse_reverse]

theorem collapse_dupD : ∀ {l : List Char},
    pairOK noDD l → collapse (dupD l) = l := by
  intro l
  induction l with
  | nil => intro _; rfl
  | cons a r ih =>
    cases r with
    | nil => intro _; rfl
    | cons b t =>
      intro h
      have hrec := ih (pairOK_tail h)
      obtain ⟨u, hu⟩ := dupD_cons b t
      cases hc : (a == '-' && digitB b || digitB a && b == '-')
      · rw [show dupD (a :: b :: t) = a :: dupD (b :: t) by simp [dupD, hc], hu,
            show collapse (a :: b :: u) = a :: collapse (b :: u) by
              simp [collapse, beq_both_dash_false h.1],
            ← hu, hrec]
      · simp only [Bool.or_eq_true, Bool.and_eq_true] at hc
        rcases hc with ⟨hd, hB⟩ | ⟨hA, hd⟩
        · -- a = '-', b a digit: the doubled dash collapses back
          have ha : a = '-' := eq_of_beq hd
          subst ha
          rw [show dupD ('-' :: b :: t) = '-' :: '-' :: dupD (b :: t) by
                simp [dupD, hB], hu,
              show collapse ('-' :: '-' :: b :: u) = collapse ('-' :: b :: u) from rfl,
              show collapse ('-' :: b :: u) = '-' :: collapse (b :: u) by
                simp [collapse, beq_dash_false_of_digit hB],
              ← hu, hrec]
        · -- a a digit, b = '-'
          have hb : b = '-' := eq_of_beq hd
          subst hb
          rw [show dupD (a :: '-' :: t) = a :: '-' :: dupD ('-' :: t) by
                simp [dupD, hA], hu,
              show collapse (a :: '-' :: '-' :: u) = a :: collapse ('-' :: '-' :: u) by
                simp [collapse, beq_dash_false_of_digit hA],
              show collapse ('-' :: '-' :: u) = collapse ('-' :: u) from rfl,
              ← hu, hrec]

theorem map_lower_id : ∀ {l : List Char},
    (∀ c ∈ l, upperB c = false) → l.map lowerChar = l := by
  intro l
  induction l with
  | nil => intro _; rfl
  | cons a r ih =>
    intro h
    show lowerChar a :: r.map lowerChar = a :: r
    rw [lowerChar_of_not_upper (h a (by simp)), ih (fun c hc => h c (by simp [hc]))]

theorem pairOK_mono {P Q : Char → Char → Prop} (h : ∀ a b, P a b → Q a b)
    {l : List Char} (hp : pairOK P l) : pairOK Q l :=
  pairOK_transfer (E := fun _ => True) (fun a b _ _ hab => h a b hab)
    (fun _ _ => trivial) hp

theorem alpha_digit_absurd {c : Char} (h1 : alphaB c = true) (h2 : digitB c = true) :
    False := by
  have hd := digitB_bounds h2
  have h1' : (upperB c || lowB c) = true := h1
  cases hu : upperB c
  · rw [hu, Bool.false_or] at h1'
    have := lowB_bounds h1'
    omega
  · have := upperB_bounds hu
    omega

theorem keepC_of_digit {c : Char} (h : digitB c = true) : keepC c = true := by
  simp [keepC, alnumX, alnumB, h]

theorem beq_big_false {c d : Char} (h : c.toNat < 128) (hd : 128 ≤ d.toNat) :
    (c == d) = false := by
  cases hb : c == d
  · rfl
  · exfalso
    have := toNat_eq_of_eq (eq_of_beq hb)
    omega

/-- Inside ASCII, the extended alphanumeric predicate is the ASCII one. -/
theorem alnumX_ascii {c : Char} (h : c.toNat < 128) : alnumX c = alnumB c := by
  show (alnumB c || c == 'İ' || c == 'ϒ') = alnumB c
  rw [beq_big_false h (by decide), beq_big_false h (by decide)]
  simp

/-- Inside ASCII, `str.isupper` is the `A`–`Z` test. -/
theorem upperPy_ascii {c : Char} (h : c.toNat < 128) : upperPy c = upperB c := by
  show (upperB c || c == 'İ' || c == 'ϒ') = upperB c
  rw [beq_big_false h (by decide), beq_big_false h (by decide)]
  simp

theorem lowerChar_ascii {c : Char} (h : c.toNat < 128) : (lowerChar c).toNat < 128 := by
  cases hu : upperB c
  · rw [lowerChar_of_not_upper hu]; exact h
  · have h1 := lowerChar_toNat_of_upper hu
    have h2 := upperB_bounds hu
    omega

/-- Inside ASCII, per-character lowering is one-to-one and agrees with
`lowerChar`. -/
theorem lowerPy_ascii {c : Char} (h : c.toNat < 128) : lowerPy c = [lowerChar c] := by
  have hbi : (c == 'İ') = false := beq_big_false h (by decide)
  cases hu : upperB c
  · rw [show lowerPy c = [c] by simp [lowerPy, hu, hbi], lowerChar_of_not_upper hu]
  · simp [lowerPy, lowerChar, hu]

/-- On an all-ASCII list, string lowering is the character-wise map. -/
theorem lowerS_eq_map : ∀ {l : List Char}, (∀ c ∈ l, c.toNat < 128) →
    lowerS l = l.map lowerChar := by
  intro l
  induction l with
  | nil => intro _; rfl
  | cons a r ih =>
    intro h
    show lowerPy a ++ lowerS r = lowerChar a :: r.map lowerChar
    rw [lowerPy_ascii (h a (by simp)), ih (fun c hc => h c (by simp [hc]))]
    rfl

theorem ascii_replC {d : Char} (h : d.toNat < 128) : (replC d).toNat < 128 := by
  unfold replC
  split
  · decide
  · exact h

theorem mem_insND : ∀ {l : List Char} {c : Char},
    c ∈ insND l → c ∈ l ∨ c = '\\' ∨ c = '-' := by
  intro l
  induction l with
  | nil => intro c h; exact Or.inl h
  | cons a r ih =>
    cases r with
    | nil => intro c h; exact Or.inl h
    | cons b t =>
      intro c h
      by_cases hc : (!digitB a && digitB b) = true
      · simp only [insND, hc, if_true, List.mem_cons] at h
        rcases h with rfl | rfl | rfl | h
        · exact Or.inl (by simp)
        · exact Or.inr (Or.inl rfl)
        · exact Or.inr (Or.inr rfl)
        · rcases ih h with h' | h' | h'
          · exact Or.inl (by simp [h'])
          · exact Or.inr (Or.inl h')
          · exact Or.inr (Or.inr h')
      · rw [show insND (a :: b :: t) = a :: insND (b :: t) by simp [insND, hc]] at h
        rcases List.mem_cons.mp h with rfl | h
        · exact Or.inl (by simp)
        · rcases ih h with h' | h' | h'
          · exact Or.inl (by simp [h'])
          · exact Or.inr (Or.inl h')
          · exact Or.inr (Or.inr h')

theorem mem_insDN : ∀ {l : List Char} {c : Char},
    c ∈ insDN l → c ∈ l ∨ c = '\\' ∨ c = '-' := by
  intro l
  induction l with
  | nil => intro c h; exact Or.inl h
  | cons a r ih =>
    cases r with
    | nil => intro c h; exact Or.inl h
    | cons b t =>
      intro c h
      by_cases hc : (digitB a && !digitB b) = true
      · simp only [insDN, hc, if_true, List.mem_cons] at h
        rcases h with rfl | rfl | rfl | h
        · exact Or.inl (by simp)
        · exact Or.inr (Or.inl rfl)
        · exact Or.inr (Or.inr rfl)
        · rcases ih h with h' | h' | h'
          · exact Or.inl (by simp [h'])
          · exact Or.inr (Or.inl h')
          · exact Or.inr (Or.inr h')
      · rw [show insDN (a :: b :: t) = a :: insDN (b :: t) by simp [insDN, hc]] at h
        rcases List.mem_cons.mp h with rfl | h
        · exact Or.inl (by simp)
        · rcases ih h with h' | h' | h'
          · exact Or.inl (by simp [h'])
          · exact Or.inr (Or.inl h')
          · exact Or.inr (Or.inr h')

theorem mem_camelAux : ∀ {l : List Char} (p : Char) {c : Char},
    c ∈ camelAux p l → c ∈ l ∨ c = '\\' ∨ c = '-' := by
  intro l
  induction l with
  | nil => intro p c h; exact Or.inl h
  | cons d r ih =>
    intro p c h
    cases hcnd : (upperB d && (lowB p || headLow r))
    · rw [show camelAux p (d :: r) = d :: camelAux d r by simp [camelAux, hcnd]] at h
      rcases List.mem_cons.mp h with rfl | h
      · exact Or.inl (by simp)
      · rcases ih d h with h' | h' | h'
        · exact Or.inl (by simp [h'])
        · exact Or.inr (Or.inl h')
        · exact Or.inr (Or.inr h')
    · rw [show camelAux p (d :: r) = '\\' :: '-' :: d :: camelAux d r by
            simp [camelAux, hcnd]] at h
      simp only [List.mem_cons] at h
      rcases h with rfl | rfl | rfl | h
      · exact Or.inr (Or.inl rfl)
      · exact Or.inr (Or.inr rfl)
      · exact Or.inl (by simp)
      · rcases ih d h with h' | h' | h'
        · exact Or.inl (by simp [h'])
        · exact Or.inr (Or.inl h')
        · exact Or.inr (Or.inr h')

theorem mem_camelS {l : List Char} {c : Char} (h : c ∈ camelS l) :
    c ∈ l ∨ c = '\\' ∨ c = '-' := by
  cases l with
  | nil => exact Or.inl h
  | cons d r =>
    rcases List.mem_cons.mp h with rfl | h
    · exact Or.inl (by simp)
    · rcases mem_camelAux d h with h' | h' | h'
      · exact Or.inl (by simp [h'])
      · exact Or.inr (Or.inl h')
      · exact Or.inr (Or.inr h')

/-- ASCII input keeps the whole core pipeline inside ASCII: the only
characters the pipeline introduces are `\` and `-`. -/
theorem ascii_core (x : List Char) (hx : ∀ c ∈ x, c.toNat < 128) :
    ∀ c ∈ filt (camelS (insDN (insND (replS x)))), c.toNat < 128 := by
  intro c hc
  have h1 := mem_filt_sub hc
  rcases mem_camelS h1 with h2 | h2 | h2
  · rcases mem_insDN h2 with h3 | h3 | h3
    · rcases mem_insND h3 with h4 | h4 | h4
      · rcases List.mem_map.mp h4 with ⟨d, hd, rfl⟩
        exact ascii_replC (hx d hd)
      · rw [h4]; decide
      · rw [h4]; decide
    · rw [h3]; decide
    · rw [h3]; decide
  · rw [h2]; decide
  · rw [h2]; decide

/-- The whole pipeline is the identity on any list satisfying the slug
output invariant. -/
theorem slug_fixed_of_good : ∀ {y : List Char}, Good y → slugL true y = y := by
  intro y hg
  obtain ⟨hel, hpair⟩ := hg
  have hkeep : ∀ c ∈ y, keepC c = true := fun c hc => (hel c hc).1
  have hupper : ∀ c ∈ y, upperB c = false := fun c hc => (hel c hc).2.1
  have hascii : ∀ c ∈ y, c.toNat < 128 := fun c hc => (hel c hc).2.2
  have hdbd : pairOK dashBeforeDigit y := by
    refine pairOK_transfer (E := goodEl) ?_ hel hpair
    intro a b ha _ hp hB hA
    cases had : a == '-'
    · exfalso
      have hk : (alnumX a || a == '-') = true := ha.1
      rw [had, Bool.or_false, alnumX_ascii ha.2.2] at hk
      have hal : (alphaB a || digitB a) = true := hk
      rw [hA, Bool.or_false] at hal
      exact hp.2.1 ⟨hal, hB⟩
    · exact eq_of_beq had
  have hdad : pairOK dashAfterDigit y := by
    refine pairOK_transfer (E := goodEl) ?_ hel hpair
    intro a b _ hb hp hA hB
    cases hbd : b == '-'
    · exfalso
      have hk : (alnumX b || b == '-') = true := hb.1
      rw [hbd, Bool.or_false, alnumX_ascii hb.2.2] at hk
      have hbl : (alphaB b || digitB b) = true := hk
      rw [hB, Bool.or_false] at hbl
      exact hp.2.2 ⟨hA, hbl⟩
    · exact eq_of_beq hbd
  have hnoup : ∀ c ∈ insB y, upperB c = false := by
    intro c hc
    rcases mem_insB hc with h' | h' | h'
    · exact hupper c h'
    · rw [h']; decide
    · rw [h']; decide
  have hnospace : ∀ c ∈ dupD y, isPySpace c = false := by
    intro c hc
    rcases mem_dupD hc with h' | h'
    · exact keep_not_space (hkeep c h')
    · rw [h']; decide
  have hnodd : pairOK noDD y := pairOK_mono (fun _ _ hp => hp.1) hpair
  show lowerS (collapse (stripL (filt (camelS (insDN (insND (replS y))))))) = y
  rw [replS_id hkeep, insND_eq_insA hdbd, insDN_insA_eq_insB hdad,
      camelS_id hnoup, filt_insB_eq_dupD hkeep, stripL_id hnospace,
      collapse_dupD hnodd, lowerS_eq_map hascii, map_lower_id hupper]

/-! ### Establishing the invariant on every pipeline output -/

theorem upperB_dash : upperB '-' = false := by decide

theorem digitSucc_tail {a : Char} {l : List Char} (h : digitSucc (a :: l)) :
    digitSucc l := by
  cases l with
  | nil => trivial
  | cons b r => exact h.2

theorem collapse_noDD : ∀ (l : List Char), pairOK noDD (collapse l) := by
  intro l
  induction l with
  | nil => trivial
  | cons a r ih =>
    cases r with
    | nil => trivial
    | cons b t =>
      cases hc : (a == '-' && b == '-')
      · obtain ⟨u, hu⟩ := collapse_cons t b
        rw [show collapse (a :: b :: t) = a :: collapse (b :: t) by simp [collapse, hc], hu]
        show noDD a b ∧ pairOK noDD (b :: u)
        constructor
        · intro hab
          rw [hab.1, hab.2] at hc
          exact absurd hc (by decide)
        · rw [← hu]; exact ih
      · rw [show collapse (a :: b :: t) = collapse (b :: t) by simp [collapse, hc]]
        exact ih

theorem collapse_pairOK {P : Char → Char → Prop} : ∀ {l : List Char},
    pairOK P l → pairOK P (collapse l) := by
  intro l
  induction l with
  | nil => intro _; trivial
  | cons a r ih =>
    cases r with
    | nil => intro _; trivial
    | cons b t =>
      intro h
      cases hc : (a == '-' && b == '-')
      · obtain ⟨u, hu⟩ := collapse_cons t b
        rw [show collapse (a :: b :: t) = a :: collapse (b :: t) by simp [collapse, hc], hu]
        show P a b ∧ pairOK P (b :: u)
        exact ⟨h.1, by rw [← hu]; exact ih (pairOK_tail h)⟩
      · rw [show collapse (a :: b :: t) = collapse (b :: t) by simp [collapse, hc]]
        exact ih (pairOK_tail h)

theorem insND_predOK : ∀ (l : List Char), pairOK predOK (insND l) := by
  intro l
  induction l with
  | nil => trivial
  | cons a r ih =>
    cases r with
    | nil => trivial
    | cons b t =>
      obtain ⟨u, hu⟩ := insND_cons b t
      cases hB : digitB b
      · rw [show insND (a :: b :: t) = a :: insND (b :: t) by simp [insND, hB], hu]
        show predOK a b ∧ pairOK predOK (b :: u)
        constructor
        · intro hB'
          rw [hB] at hB'
          exact absurd hB' (by decide)
        · rw [← hu]; exact ih
      · cases hA : digitB a
        · rw [show insND (a :: b :: t) = a :: '\\' :: '-' :: insND (b :: t) by
                simp [insND, hA, hB], hu]
          show predOK a '\\' ∧ predOK '\\' '-' ∧ predOK '-' b ∧ pairOK predOK (b :: u)
          refine ⟨fun hd => absurd hd (by decide), fun hd => absurd hd (by decide),
            fun _ => Or.inr rfl, ?_⟩
          rw [← hu]; exact ih
        · rw [show insND (a :: b :: t) = a :: insND (b :: t) by simp [insND, hA], hu]
          show predOK a b ∧ pairOK predOK (b :: u)
          exact ⟨fun _ => Or.inl hA, by rw [← hu]; exact ih⟩

theorem insDN_predOK : ∀ {l : List Char},
    pairOK predOK l → pairOK predOK (insDN l) := by
  intro l
  induction l with
  | nil => intro _; trivial
  | cons a r ih =>
    cases r with
    | nil => intro _; trivial
    | cons b t =>
      intro h
      obtain ⟨u, hu⟩ := insDN_cons b t
      cases hc : (digitB a && !digitB b)
      · rw [show insDN (a :: b :: t) = a :: insDN (b :: t) by simp [insDN, hc], hu]
        show predOK a b ∧ pairOK predOK (b :: u)
        exact ⟨h.1, by rw [← hu]; exact ih (pairOK_tail h)⟩
      · rw [show insDN (a :: b :: t) = a :: '\\' :: '-' :: insDN (b :: t) by
              simp [insDN, hc], hu]
        show predOK a '\\' ∧ predOK '\\' '-' ∧ predOK '-' b ∧ pairOK predOK (b :: u)
        refine ⟨fun hd => absurd hd (by decide), fun hd => absurd hd (by decide),
          fun _ => Or.inr rfl, ?_⟩
        rw [← hu]; exact ih (pairOK_tail h)

theorem insDN_digitSucc : ∀ (l : List Char), digitSucc (insDN l) := by
  intro l
  induction l with
  | nil => trivial
  | cons a r ih =>
    cases r with
    | nil => trivial
    | cons b t =>
      obtain ⟨u, hu⟩ := insDN_cons b t
      cases hc : (digitB a && !digitB b)
      · rw [show insDN (a :: b :: t) = a :: insDN (b :: t) by simp [insDN, hc], hu]
        show (digitB a = true → (digitB b = true ∨ (b = '\\' ∧ u.head? = some '-')))
          ∧ digitSucc (b :: u)
        constructor
        · intro hA
          cases hB : digitB b
          · rw [hA, hB] at hc
            exact absurd hc (by decide)
          · exact Or.inl rfl
        · rw [← hu]; exact ih
      · rw [show insDN (a :: b :: t) = a :: '\\' :: '-' :: insDN (b :: t) by
              simp [insDN, hc], hu]
        show (digitB a = true
              → (digitB '\\' = true ∨ ('\\' = '\\' ∧ ('-' :: b :: u).head? = some '-')))
          ∧ (digitB '\\' = true → (digitB '-' = true ∨ ('-' = '\\' ∧ (b :: u).head? = some '-')))
          ∧ (digitB '-' = true → (digitB b = true ∨ (b = '\\' ∧ u.head? = some '-')))
          ∧ digitSucc (b :: u)
        refine ⟨fun _ => Or.inr ⟨rfl, rfl⟩, fun hd => absurd hd (by decide),
          fun hd => absurd hd (by decide), ?_⟩
        rw [← hu]; exact ih

theorem camelAux_predOK : ∀ {l : List Char} (p : Char),
    pairOK predOK (p :: l) → pairOK predOK (p :: camelAux p l) := by
  intro l
  induction l with
  | nil => intro p _; trivial
  | cons c r ih =>
    intro p h
    cases hcnd : (upperB c && (lowB p || headLow r))
    · rw [show camelAux p (c :: r) = c :: camelAux c r by simp [camelAux, hcnd]]
      show predOK p c ∧ pairOK predOK (c :: camelAux c r)
      exact ⟨h.1, ih c (pairOK_tail h)⟩
    · rw [show camelAux p (c :: r) = '\\' :: '-' :: c :: camelAux c r by
            simp [camelAux, hcnd]]
      show predOK p '\\' ∧ predOK '\\' '-' ∧ predOK '-' c
        ∧ pairOK predOK (c :: camelAux c r)
      exact ⟨fun hd => absurd hd (by decide), fun hd => absurd hd (by decide),
        fun _ => Or.inr rfl, ih c (pairOK_tail h)⟩

theorem camelS_predOK {l : List Char} (h : pairOK predOK l) :
    pairOK predOK (camelS l) := by
  cases l with
  | nil => trivial
  | cons c r =>
    show pairOK predOK (c :: camelAux c r)
    exact camelAux_predOK c h

theorem camelAux_digitSucc : ∀ {l : List Char} (p : Char),
    digitSucc (p :: l) → digitSucc (p :: camelAux p l) := by
  intro l
  induction l with
  | nil => intro p _; trivial
  | cons c r ih =>
    intro p h
    cases hcnd : (upperB c && (lowB p || headLow r))
    · rw [show camelAux p (c :: r) = c :: camelAux c r by simp [camelAux, hcnd]]
      show (digitB p = true
            → (digitB c = true ∨ (c = '\\' ∧ (camelAux c r).head? = some '-')))
        ∧ digitSucc (c :: camelAux c r)
      constructor
      · intro hp
        rcases h.1 hp with hdc | ⟨hcb, hr⟩
        · exact Or.inl hdc
        · subst hcb
          refine Or.inr ⟨rfl, ?_⟩
          cases r with
          | nil => exact absurd hr (by simp)
          | cons d r' =>
            have hd : d = '-' := by simpa using hr
            subst hd
            rw [show camelAux '\\' ('-' :: r') = '-' :: camelAux '-' r' by
                  simp [camelAux, upperB_dash]]
            rfl
      · exact ih c (digitSucc_tail h)
    · rw [show camelAux p (c :: r) = '\\' :: '-' :: c :: camelAux c r by
            simp [camelAux, hcnd]]
      show (digitB p = true
            → (digitB '\\' = true ∨ ('\\' = '\\' ∧ ('-' :: c :: camelAux c r).head? = some '-')))
        ∧ (digitB '\\' = true
            → (digitB '-' = true ∨ ('-' = '\\' ∧ (c :: camelAux c r).head? = some '-')))
        ∧ (digitB '-' = true
            → (digitB c = true ∨ (c = '\\' ∧ (camelAux c r).head? = some '-')))
        ∧ digitSucc (c :: camelAux c r)
      exact ⟨fun _ => Or.inr ⟨rfl, rfl⟩, fun hd => absurd hd (by decide),
        fun hd => absurd hd (by decide), ih c (digitSucc_tail h)⟩

theorem camelS_digitSucc {l : List Char} (h : digitSucc l) : digitSucc (camelS l) := by
  cases l with
  | nil => trivial
  | cons c r =>
    show digitSucc (c :: camelAux c r)
    exact camelAux_digitSucc c h

/-- If the first kept character of a list obeying the predecessor discipline
is a digit, it is the very first character (a digit's predecessor is a digit
or a hyphen, both of which are kept). -/
theorem filt_head_digit : ∀ {l : List Char}, pairOK predOK l →
    ∀ {c : Char}, (filt l).head? = some c → digitB c = true → l.head? = some c := by
  intro l
  induction l with
  | nil => intro _ c hc _; simp [filt] at hc
  | cons b r ih =>
    intro h c hc hd
    cases hk : keepC b
    · rw [show filt (b :: r) = filt r by simp [filt, List.filter_cons, hk]] at hc
      have hrh := ih (pairOK_tail h) hc hd
      exfalso
      cases r with
      | nil => simp at hrh
      | cons d r' =>
        have hdc : d = c := by simpa using hrh
        subst hdc
        rcases h.1 hd with hdb | hdb
        · rw [keepC_of_digit hdb] at hk
          exact absurd hk (by decide)
        · rw [hdb] at hk
          exact absurd hk (by decide)
    · rw [show filt (b :: r) = b :: filt r by simp [filt, List.filter_cons, hk]] at hc
      have hbc : b = c := by simpa using hc
      subst hbc
      rfl

/-- Filtering a list obeying both digit disciplines leaves no letter–digit
adjacency: the kept neighbour of every digit is a digit or a hyphen. -/
theorem filt_noAD : ∀ {l : List Char}, pairOK predOK l → digitSucc l →
    pairOK noAD (filt l) := by
  intro l
  induction l with
  | nil => intro _ _; trivial
  | cons a r ih =>
    intro hp hs
    cases hk : keepC a
    · rw [show filt (a :: r) = filt r by simp [filt, List.filter_cons, hk]]
      exact ih (pairOK_tail hp) (digitSucc_tail hs)
    · rw [show filt (a :: r) = a :: filt r by simp [filt, List.filter_cons, hk]]
      cases hfe : filt r with
      | nil => trivial
      | cons x xs =>
        show noAD a x ∧ pairOK noAD (x :: xs)
        constructor
        · constructor
          · intro had
            have hrh := filt_head_digit (pairOK_tail hp) (by rw [hfe]; rfl) had.2
            cases r with
            | nil => simp at hrh
            | cons d r' =>
              have hdx : d = x := by simpa using hrh
              subst hdx
              rcases hp.1 had.2 with h1 | h1
              · exact alpha_digit_absurd had.1 h1
              · rw [h1] at had
                exact absurd had.1 (by decide)
          · intro hda
            cases r with
            | nil => simp [filt] at hfe
            | cons d r' =>
              rcases hs.1 hda.1 with hdd | ⟨hdb, hr'⟩
              · rw [show filt (d :: r') = d :: filt r' by
                      simp [filt, List.filter_cons, keepC_of_digit hdd]] at hfe
                injection hfe with h1 h2
                rw [h1] at hdd
                exact alpha_digit_absurd hda.2 hdd
              · subst hdb
                cases r' with
                | nil => exact absurd hr' (by simp)
                | cons e r'' =>
                  have he : e = '-' := by simpa using hr'
                  subst he
                  rw [show filt ('\\' :: '-' :: r'') = '-' :: filt r'' from rfl] at hfe
                  injection hfe with h1 h2
                  rw [← h1] at hda
                  exact absurd hda.2 (by decide)
        · rw [← hfe]
          exact ih (pairOK_tail hp) (digitSucc_tail hs)

/-- Every character surviving to the end of the core pipeline is kept by the
filter: alphanumeric or hyphen. -/
theorem slug_core_keep (x : List Char) :
    ∀ c ∈ collapse (stripL (filt (camelS (insDN (insND (replS x)))))), keepC c = true := by
  intro c hc
  have hfk : ∀ d ∈ filt (camelS (insDN (insND (replS x)))), keepC d = true :=
    fun d hd => mem_filt hd
  rw [stripL_id (fun d hd => keep_not_space (hfk d hd))] at hc
  exact hfk c (mem_collapse hc)

theorem beq_dash_lower (c : Char) : (lowerChar c == '-') = (c == '-') := by
  cases h : c == '-'
  · cases h2 : lowerChar c == '-'
    · rfl
    · exfalso
      have hcd : c = '-' := (lowerChar_eq_dash_iff c).mp (eq_of_beq h2)
      rw [hcd] at h
      exact absurd h (by decide)
  · have hcd : c = '-' := eq_of_beq h
    subst hcd
    decide

theorem keepC_lower {c : Char} (h : c.toNat < 128) :
    keepC (lowerChar c) = keepC c := by
  show (alnumX (lowerChar c) || (lowerChar c == '-')) = (alnumX c || (c == '-'))
  rw [alnumX_ascii (lowerChar_ascii h), alnumX_ascii h, alnumB_lowerChar, beq_dash_lower]

theorem goodPair_lower {a b : Char} (h : goodPair a b) :
    goodPair (lowerChar a) (lowerChar b) := by
  refine ⟨?_, ?_, ?_⟩
  · intro hab
    exact h.1 ⟨(lowerChar_eq_dash_iff a).mp hab.1, (lowerChar_eq_dash_iff b).mp hab.2⟩
  · intro hab
    rw [alphaB_lowerChar] at hab
    rw [digitB_lowerChar] at hab
    exact h.2.1 hab
  · intro hab
    rw [digitB_lowerChar] at hab
    rw [alphaB_lowerChar] at hab
    exact h.2.2 hab

theorem pairOK_map_lower {P : Char → Char → Prop}
    (hP : ∀ a b, P a b → P (lowerChar a) (lowerChar b)) : ∀ {l : List Char},
    pairOK P l → pairOK P (l.map lowerChar) := by
  intro l
  induction l with
  | nil => intro _; trivial
  | cons a r ih =>
    cases r with
    | nil => intro _; trivial
    | cons b t =>
      intro h
      show P (lowerChar a) (lowerChar b) ∧ pairOK P (lowerChar b :: t.map lowerChar)
      exact ⟨hP a b h.1, ih h.2⟩

/-- The output of `slugify` with the default lowercase flag satisfies the
full slug invariant. -/
theorem good_slug (x : List Char) (hx : ∀ c ∈ x, c.toNat < 128) :
    Good (slugL true x) := by
  have hfk : ∀ d ∈ filt (camelS (insDN (insND (replS x)))), keepC d = true :=
    fun d hd => mem_filt hd
  have hstrip : stripL (filt (camelS (insDN (insND (replS x)))))
      = filt (camelS (insDN (insND (replS x)))) :=
    stripL_id (fun d hd => keep_not_space (hfk d hd))
  have hpred : pairOK predOK (camelS (insDN (insND (replS x)))) :=
    camelS_predOK (insDN_predOK (insND_predOK (replS x)))
  have hds : digitSucc (camelS (insDN (insND (replS x)))) :=
    camelS_digitSucc (insDN_digitSucc (insND (replS x)))
  have hnoad : pairOK noAD (filt (camelS (insDN (insND (replS x))))) :=
    filt_noAD hpred hds
  have hasciic : ∀ d ∈ collapse (stripL (filt (camelS (insDN (insND (replS x)))))),
      d.toNat < 128 := by
    intro d hd
    rw [hstrip] at hd
    exact ascii_core x hx d (mem_collapse hd)
  have hrew : slugL true x
      = (collapse (stripL (filt (camelS (insDN (insND (replS x))))))).map lowerChar :=
    lowerS_eq_map hasciic
  constructor
  · intro c hc
    rw [hrew] at hc
    rcases List.mem_map.mp hc with ⟨d, hd, rfl⟩
    have hkd : keepC d = true := slug_core_keep x d hd
    have hda : d.toNat < 128 := hasciic d hd
    refine ⟨?_, upperB_lowerChar d, lowerChar_ascii hda⟩
    rw [keepC_lower hda]
    exact hkd
  · have hnodd : pairOK noDD (collapse (stripL (filt (camelS (insDN (insND (replS x))))))) := by
      rw [hstrip]
      exact collapse_noDD _
    have hnoadc : pairOK noAD (collapse (stripL (filt (camelS (insDN (insND (replS x))))))) := by
      rw [hstrip]
      exact collapse_pairOK hnoad
    have hcomb := pairOK_and hnodd hnoadc
    rw [hrew]
    exact pairOK_map_lower (fun a b hab => goodPair_lower hab) hcomb

/-! ## Claim theorems -/

/-- Claim C1, counterexample: the option `featured=false` does NOT yield
`False` — `bool(v.strip())` is Python string truthiness, and `"false"` is a
non-empty string, so the resulting featured flag is `True`. -/
theorem featured_false_yields_true_cex :
    featuredFromEntry false (some "featured=false") = true := by decide

/-- Claim C1 (amended): the first option whose trimmed key is `featured`
determines the flag and stops the scan, but the value is parsed by Python
string truthiness — any non-empty trimmed value (including `false`) yields
`True` and only an empty trimmed value yields `False`; a bare trimmed
`featured` yields `True`; an absent field or no matching option leaves the
caller-supplied default. -/
theorem featured_flag_resolution :
    (∀ d : Bool, featuredFromEntry d none = d)
    ∧ featuredFromEntry false (some "featured=true,other=x") = true
    ∧ featuredFromEntry false (some "featured") = true
    ∧ featuredFromEntry false (some "featured=false") = true
    ∧ featuredFromEntry true (some "featured=") = false
    ∧ featuredFromEntry false (some " featured , other") = true
    ∧ (∀ d : Bool, featuredFromEntry d (some "other=x,misc") = d)
    ∧ featuredFromEntry true (some "featured=x,featured=") = true
    ∧ (∀ (d b : Bool) (o : String) (rest : List String),
        parseOptionStep o = Except.ok (some b) → scanOptions d (o :: rest) = b) := by
  refine ⟨fun d => rfl, by decide, by decide, by decide, by decide, by decide,
    fun d => by cases d <;> decide, by decide, ?_⟩
  intro d b o rest h
  simp [scanOptions, h]

/-- Witness for `featured_flag_resolution`: the short-circuit conjunct applied
at a concrete matching first option. -/
theorem featured_flag_resolution_witness :
    parseOptionStep "featured=x" = Except.ok (some true)
    ∧ scanOptions false ["featured=x", "featured="] = true :=
  ⟨by decide,
    featured_flag_resolution.2.2.2.2.2.2.2.2 false true "featured=x" ["featured="] (by decide)⟩

/-- Claim C2, counterexample: the importer duplicated in `cli.py` builds a
fresh metadata dictionary whose `publishDate` is always the new timestamp,
so an existing on-disk `publishDate` (here `2015-01-01T00:00:00Z`) is not
preserved on a re-import with overwrite through the CLI. -/
theorem cli_publish_date_not_preserved_cex :
    (cliMetadataCore "T" "2015-01-01" "2024-05-05T00:00:00Z").lookup "publishDate"
      = some "2024-05-05T00:00:00Z"
    ∧ ("2024-05-05T00:00:00Z" : String) ≠ "2015-01-01T00:00:00Z" := by decide

/-- Claim C2 (amended): in the `EditableFM`-based importer
(`import_bibtex.py`) an already-present `publishDate` is preserved, else
the resolved date is used when the publish-date-from-bibtex mode is on,
else the fresh UTC timestamp with a literal `Z` suffix; the duplicate
entry parser in `cli.py` instead always emits the fresh timestamp. -/
theorem publish_date_resolution :
    (∀ (b : Bool) (v d ts : String), resolvePublishDate (some v) b d ts = v)
    ∧ (∀ d ts : String, resolvePublishDate none true d ts = d)
    ∧ (∀ d ts : String, resolvePublishDate none false d ts = ts)
    ∧ (∀ iso : String, (mkTimestamp iso).data = iso.data ++ ['Z'])
    ∧ (∀ t d ts : String, (cliMetadataCore t d ts).lookup "publishDate" = some ts) := by
  refine ⟨fun b v d ts => rfl, fun d ts => rfl, fun d ts => rfl, fun iso => ?_,
    fun t d ts => ?_⟩
  · simp [mkTimestamp, String.data_append]
  · rfl

/-- Claim C3: `publication_types` is always a one-element list holding
`str(pubtype.value)`; `phdthesis` maps to Thesis and yields `["7"]`, but the
enum member `Uncategorized` is declared as `Uncategorized = 0,` whose
trailing comma makes its Python value the tuple `(0,)`, so every entry type
mapping to Uncategorized (unknown keywords, `misc`, `proceedings`) yields
`["(0,)"]` instead of the intended `["0"]`. -/
theorem publication_types_tuple_value :
    publicationTypes "phdthesis" = ["7"]
    ∧ publicationTypes "foobar" = ["(0,)"]
    ∧ publicationTypes "misc" = ["(0,)"]
    ∧ publicationTypes "article" = ["2"]
    ∧ (∀ t : String, (publicationTypes t).length = 1) :=
  ⟨by decide, by decide, by decide, by decide, fun t => rfl⟩

/-- Claim C4, counterexample: a batch whose first entry has the unparseable
textual month `Foobar` aborts with an exception before the second entry is
processed, even though the second entry alone imports fine — per-entry
failures are not isolated. -/
theorem batch_abort_cex :
    importBatch [⟨"bad", "article", none, some "Foobar", some "2020"⟩,
                 ⟨"good", "article", none, none, some "2020"⟩] = Except.error ()
    ∧ importBatch [⟨"good", "article", none, none, some "2020"⟩]
        = Except.ok ["2020-01-01"] := by decide

/-- Claim C4 (amended): the entry loop of `import_bibtex` has no per-entry
exception handler, so an exception raised while resolving one entry's date
(e.g. an unrecognized textual month) propagates and aborts the processing
of all subsequent entries of the batch. -/
theorem batch_aborts_on_entry_error :
    ∀ (bad : BibEntry) (rest : List BibEntry),
      processEntry bad = Except.error () → importBatch (bad :: rest) = Except.error () := by
  intro bad rest h
  simp [importBatch, h]

/-- Witness for `batch_aborts_on_entry_error` at a concrete failing entry. -/
theorem batch_aborts_on_entry_error_witness :
    importBatch [⟨"b", "misc", none, some "Smarch", none⟩,
                 ⟨"g", "misc", none, none, some "1999"⟩] = Except.error () :=
  batch_aborts_on_entry_error ⟨"b", "misc", none, some "Smarch", none⟩
    [⟨"g", "misc", none, none, some "1999"⟩] (by decide)

/-- Claim C5, counterexample: `option.split("=")` is called with no maxsplit,
so `featured=a=b` does not parse as key `featured` with value `a=b`: the
two-variable unpacking raises `ValueError` and the caller default is used,
whereas the claimed split-once reading would yield `True`. -/
theorem option_split_once_cex :
    featuredFromEntry false (some "featured=a=b") = false
    ∧ featuredFromEntrySpecOnce false (some "featured=a=b") = true := by decide

/-- Claim C5 (amended): an option containing two or more `=` makes the
`k, v = option.split("=")` unpacking raise; the exception is caught and
logged at the options-field level, the remaining options are abandoned, and
the caller-supplied default is used (no earlier assignment can exist, since
every assignment breaks the scan); an option with exactly one `=` is split
into key and value. -/
theorem malformed_option_fallback :
    parseOptionStep "featured=a=b" = Except.error ()
    ∧ (∀ (d : Bool) (o : String) (rest : List String),
        parseOptionStep o = Except.error () → scanOptions d (o :: rest) = d)
    ∧ parseOptionStep " featured = yes" = Except.ok (some true)
    ∧ featuredFromEntry false (some "featured=a=b") = false := by
  refine ⟨by decide, ?_, by decide, by decide⟩
  intro d o rest h
  simp [scanOptions, h]

/-- Witness for `malformed_option_fallback`: the fallback conjunct applied at
a concrete malformed option. -/
theorem malformed_option_fallback_witness :
    scanOptions true ["a=b=c", "featured="] = true :=
  malformed_option_fallback.2.1 true "a=b=c" ["featured="] (by decide)

/-- Claim C6: the date-resolution order — a present `date` field is split on
`-` (three parts give year/month/day, two give year/month with day `01`,
one gives the year only); the `month` field is converted via
month-name-to-number only while the month is still `01`; the `year` field
is used only while the year is still empty. -/
theorem date_resolution_order :
    (∀ mf yf, resolveDate (some "2019-03-15") mf yf = Except.ok ("2019", "03", "15"))
    ∧ resolveDate none none (some "2021") = Except.ok ("2021", "01", "01")
    ∧ (∀ ys : String, resolveDate none none (some ys) = Except.ok (ys, "01", "01"))
    ∧ resolveDate (some "2021-07") none none = Except.ok ("2021", "07", "01")
    ∧ (∀ ys : String, resolveDate none (some "March") (some ys) = Except.ok (ys, "03", "01"))
    ∧ resolveDate (some "2020-05") (some "March") none = Except.ok ("2020", "05", "01")
    ∧ resolveDate (some "2020-01") (some "March") none = Except.ok ("2020", "03", "01")
    ∧ resolveDate (some "2019") none (some "1999") = Except.ok ("2019", "01", "01") := by
  refine ⟨fun mf yf => ?_, by decide, fun ys => rfl, by decide, fun ys => rfl,
    by decide, by decide, by decide⟩
  cases mf <;> cases yf <;> rfl

/-- Claim C8: when the bundle directory already exists and overwrite was not
requested, `parse_bibtex_entry` returns at the skip check before any
filesystem mutation — the list of performed operations is empty, for every
dry-run setting and every path. -/
theorem skip_existing_bundle_no_effects :
    ∀ (dryRun : Bool) (bundlePath markdownPath citePath : String),
      bundleEffects false true dryRun bundlePath markdownPath citePath = [] :=
  fun _ _ _ _ => rfl

/-- Claim C7, counterexample: the slug generator is not idempotent on every
input string — `str.lower` maps `İ` (U+0130) to `i` followed by the
combining dot above U+0307, so `slugify("İ")` is the two-character string
`i`+U+0307, but a second application strips U+0307 (it is not alphanumeric)
and returns the plain `i`. -/
theorem slugify_not_idempotent_cex :
    slugify true "İ" = "i\u0307"
    ∧ slugify true (slugify true "İ") = "i"
    ∧ slugify true (slugify true "İ") ≠ slugify true "İ" := by decide

/-- Claim C7 (amended): the slug generator (with its default lowercase flag)
is idempotent on every ASCII input string; for non-ASCII input it can fail
to be idempotent, because lowercasing `İ` produces the
non-alphanumeric combining dot U+0307 that a second pass removes. -/
theorem slugify_idempotent_ascii : ∀ s : String, s.data.all asciiChar = true →
    slugify true (slugify true s) = slugify true s := by
  intro s h
  have hx : ∀ c ∈ s.data, c.toNat < 128 := fun c hc =>
    of_decide_eq_true (List.all_eq_true.mp h c hc)
  show String.mk (slugL true (String.mk (slugL true s.data)).data)
      = String.mk (slugL true s.data)
  exact congrArg String.mk (slug_fixed_of_good (good_slug s.data hx))

/-- Witness for `slugify_idempotent_ascii` at a concrete ASCII input. -/
theorem slugify_idempotent_ascii_witness :
    ("Smith2020FooBar" : String).data.all asciiChar = true
    ∧ slugify true (slugify true "Smith2020FooBar") = slugify true "Smith2020FooBar" :=
  ⟨by decide, slugify_idempotent_ascii "Smith2020FooBar" (by decide)⟩

/-- Claim C9, counterexample: slugify's output is not always alphanumeric or
hyphen — lowercasing `İ` leaves the combining dot U+0307 in the output —
and with the lowercase flag it can retain an uppercase letter: `ϒ`
(U+03D2) is uppercase (`isupper`) but has no lowercase mapping and is not
matched by the ASCII regex class `[A-Z]`. -/
theorem slugify_output_unicode_cex :
    ((slugify true "İ").data.all keepC = false)
    ∧ ((slugify true "ϒ").data.all (fun c => !upperPy c) = false) := by decide

/-- Claim C9 (amended): for every ASCII input string, every character of
slugify's output is alphanumeric or the hyphen, and with the lowercase flag
set (the default) the output contains no uppercase letter; the
all-characters-kept fact for the non-lowercased variant holds for every
input. -/
theorem slugify_output_chars_ascii : ∀ s : String, s.data.all asciiChar = true →
    ((slugify true s).data.all (fun c => keepC c && !upperPy c) = true)
    ∧ (∀ u : String, (slugify false u).data.all keepC = true) := by
  intro s h
  have hx : ∀ c ∈ s.data, c.toNat < 128 := fun c hc =>
    of_decide_eq_true (List.all_eq_true.mp h c hc)
  constructor
  · rw [List.all_eq_true]
    intro c hc
    have hg := (good_slug s.data hx).1 c hc
    have hup : upperPy c = false := by
      rw [upperPy_ascii hg.2.2]
      exact hg.2.1
    simp [hg.1, hup]
  · intro u
    rw [List.all_eq_true]
    intro c hc
    exact slug_core_keep u.data c hc

/-- Witness for `slugify_output_chars_ascii` at a concrete ASCII input. -/
theorem slugify_output_chars_ascii_witness :
    ("Doe2020" : String).data.all asciiChar = true
    ∧ ((slugify true "Doe2020").data.all (fun c => keepC c && !upperPy c) = true)
    ∧ ((slugify false "Doe2020").data.all keepC = true) :=
  ⟨by decide, (slugify_output_chars_ascii "Doe2020" (by decide)).1,
    (slugify_output_chars_ascii "Doe2020" (by decide)).2 "Doe2020"⟩

/-- Claim C10: `clean_bibtex_tags` always returns at least one tag, and the
empty keywords string produces exactly the single-element list `[""]`. -/
theorem tags_never_empty :
    (∀ (s : String) (n : Bool), 1 ≤ (cleanBibtexTags s n).length)
    ∧ (∀ n : Bool, cleanBibtexTags "" n = [""]) := by
  constructor
  · intro s n
    have h : 0 < (splitChar ',' s.data).length :=
      List.length_pos.mpr (splitChar_ne_nil ',' s.data)
    unfold cleanBibtexTags
    cases n <;> simpa using h
  · intro n
    cases n <;> decide

end Academic
